import Mathlib

/-!
Ink (`main.go`): front-matter conversion, publish and watch loop

A shallow embedding of the parts of `main.go` that decide the behaviour of
`Convert`, `Publish` and the event loop started by `Watch`, followed by the
theorems about them.

Conventions of the embedding.

* A Go `string` is modelled by `Str`, the list of its code points; only valid
  UTF-8 text is covered. Go's builtin `len` counts bytes, so it is modelled by
  `len`, the size of the UTF-8 encoding, and not by `List.length`.
* Positions returned by `Index` are code-point positions. Every separator the
  program searches for is ASCII and UTF-8 is self-synchronising, so slicing at
  such a position gives the same pieces as Go's slicing at the byte position.
* Library routines (`strings`, `path/filepath`, `unicode`) follow the Go
  standard library on a Unix-like system, where the path separator is `/`.
* Calls into collaborators that are not part of `main.go` (`Build`, the YAML
  codec, the websocket connection, the spawned process) are recorded as
  actions or taken as parameters.
-/

namespace Ink

/-! ## Strings -/

/-- A Go string holding valid UTF-8 text, as the sequence of its code points. -/
abbrev Str := List Char

/-- Go builtin `len` on a string: the number of bytes of its UTF-8 encoding. -/
def len (s : Str) : Nat := (s.map Char.utf8Size).sum

/-- Go `strings.Index s sep`: position of the first occurrence of `sep` in
`s`, `none` standing for the result `-1`. -/
def Index (sep : Str) : Str → Option Nat
  | [] => if sep.isPrefixOf [] then some 0 else none
  | c :: t => if sep.isPrefixOf (c :: t) then some 0 else (Index sep t).map (· + 1)

/-- Go `strings.explode`: split into single code points, at most `n` pieces,
the last piece holding the remainder. -/
def explode : Str → Nat → List Str
  | [], _ => []
  | c :: t, n => if n ≤ 1 then [c :: t] else [c] :: explode t (n - 1)

/-- The loop of Go `strings.genSplit`: cut at the first occurrence of `sep`
while pieces remain to be cut (`k` of them), then keep the rest whole. -/
def splitLoop (sep : Str) : Nat → Str → List Str
  | 0, s => [s]
  | k + 1, s =>
    match Index sep s with
    | none => [s]
    | some m => s.take m :: splitLoop sep k (s.drop (m + sep.length))

/-- Go `strings.SplitN s sep n` for `n ≥ 0`: `n = 0` gives no pieces, an empty
separator explodes the string, and otherwise at most `n` pieces are cut, `n`
being first clamped to `len s + 1`. -/
def SplitN (s sep : Str) (n : Nat) : List Str :=
  if n = 0 then []
  else if sep = [] then explode s n
  else splitLoop sep (min n (len s + 1) - 1) s

/-- Go `unicode.IsSpace`: the Latin-1 spaces and the code points with the
Unicode White_Space property. -/
def IsSpace (c : Char) : Bool :=
  let r := c.toNat
  (0x09 ≤ r && r ≤ 0x0d) || r == 0x20 || r == 0x85 || r == 0xa0 || r == 0x1680 ||
  (0x2000 ≤ r && r ≤ 0x200a) || r == 0x2028 || r == 0x2029 || r == 0x202f ||
  r == 0x205f || r == 0x3000

/-- Go `strings.TrimSpace`: drop leading and trailing white space. -/
def TrimSpace (s : Str) : Str := (s.dropWhile IsSpace).rdropWhile IsSpace

/-- Go `unicode.ToLower` on the ASCII range. Code points outside ASCII are
left as they are: none of them lower-cases to `.`, `m`, `d`, `h`, `t` or `l`,
so equality of a lower-cased string with `.md` or `.html` is not affected. -/
def toLowerRune (c : Char) : Char :=
  if 'A' ≤ c ∧ c ≤ 'Z' then Char.ofNat (c.toNat + 32) else c

/-- Go `strings.ToLower`. -/
def ToLower (s : Str) : Str := s.map toLowerRune

/-! ## Paths -/

/-- The backward scan of Go `filepath.Ext`: the first argument is what is left
of the path, last character first, the second is the suffix already passed. -/
def extLoop : Str → Str → Str
  | [], _ => []
  | c :: rest, acc =>
    if c = '/' then [] else if c = '.' then c :: acc else extLoop rest (c :: acc)

/-- Go `filepath.Ext`: the suffix starting at the last dot of the last path
element, empty when that element has no dot. -/
def Ext (path : Str) : Str := extLoop path.reverse []

/-- Go `filepath.Base`: the last element of the path, trailing separators
removed first; `.` for the empty path and `/` for a path of separators. -/
def Base (path : Str) : Str :=
  if path = [] then ['.']
  else
    let p := path.rdropWhile (· == '/')
    let p := p.rtakeWhile (· != '/')
    if p = [] then ['/'] else p

/-! ## Convert -/

/-- Modelled from the spec: the declaration of `ArticleConfig` is not in
`main.go`; the fields are those the spec lists for the article front
matter, under the names `Convert` uses. -/
structure ArticleConfig where
  Title : Str
  Date : Str
  Update : Str
  Author : Str
  Tags : List Str
  Categories : List Str
  deriving DecidableEq

/-- Lines 248-256 of `Convert`: the keys of the map `tags` are the original
tags, and each category that is not a key is appended to the tag slice. The
map is not written to inside the second loop. -/
def mergeTags (Tags Categories : List Str) : List Str :=
  let tags : List Str := Tags.foldl (fun m t => t :: m) []
  Categories.foldl (fun acc c => if c ∈ tags then acc else acc ++ [c]) Tags

/-- Lines 257-259 of `Convert`. -/
def defaultAuthor (Author : Str) : Str :=
  if Author = [] then "me".toList else Author

/-- Lines 260-270 of `Convert`. -/
def convertDate (Date : Str) : Str :=
  let dateAry := SplitN Date ['.'] 2
  let Date := if dateAry.length = 2 then dateAry.getD 0 [] else Date
  let Date := if len Date = 10 then Date ++ " 00:00:00".toList else Date
  let Date := if len Date = 0 then "1970-01-01 00:00:00".toList else Date
  Date

/-- Lines 248-271 of `Convert`: what happens to the parsed article between
`yaml.Unmarshal` and `yaml.Marshal`. -/
def normalize (article : ArticleConfig) : ArticleConfig :=
  { article with
    Tags := mergeTags article.Tags article.Categories
    Author := defaultAuthor article.Author
    Date := convertDate article.Date
    Update := [] }

/-- The delimiter between front matter and body. -/
def delim : Str := ['-', '-', '-']

/-- Lines 232-242 of `Convert`: front matter and body of the file content. -/
def splitConfig (data : Str) : Str × Str :=
  let content := TrimSpace data
  let parseAry := SplitN content delim 3
  let parseLen := parseAry.length
  if parseLen = 3 then (parseAry.getD 1 [], parseAry.getD 2 [])
  else if parseLen = 2 then (parseAry.getD 0 [], parseAry.getD 1 [])
  else ([], [])

/-- Lines 222-223 and 279-282 of `Convert`: the name of the output file under
the target root, `none` when the file is not selected for conversion. -/
def targetName (path : Str) : Option Str :=
  let fileExt := ToLower (Ext path)
  if fileExt = ".md".toList ∨ fileExt = ".html".toList then
    let fileName := Base path
    let targetName := "source/".toList ++ fileName
    some (if fileExt ≠ ".md".toList then targetName ++ ".md".toList else targetName)
  else none

/-- The result of handling one file in the walk of `Convert`. -/
inductive FileResult where
  | skipped
  | fatal (msg : Str)
  | written (targetName : Str) (markdownStr : Str)
  deriving DecidableEq

/-- Lines 222-285 of `Convert`, the callback run on one path of the walk. The
file read and the YAML codec are collaborators: `read` is the result of
`ioutil.ReadFile`, `Unmarshal` and `Marshal` stand for `yaml.Unmarshal` and
`yaml.Marshal`, an error carrying the message handed to `Fatal`. -/
def convertFile (Unmarshal : Str → Except Str ArticleConfig)
    (Marshal : ArticleConfig → Except Str Str) (path : Str) (read : Except Str Str) :
    FileResult :=
  match targetName path with
  | none => FileResult.skipped
  | some target =>
    match read with
    | Except.error e => FileResult.fatal e
    | Except.ok data =>
      let (configStr, contentStr) := splitConfig data
      match Unmarshal configStr with
      | Except.error e => FileResult.fatal e
      | Except.ok article =>
        match Marshal (normalize article) with
        | Except.error e => FileResult.fatal e
        | Except.ok inkConfigStr =>
          FileResult.written target
            (inkConfigStr ++ "\n\n---\n\n".toList ++ contentStr ++ "\n".toList)

/-! ### The claims about `Convert`, in the words of the specification -/

/-- The portion of a date before its first `.` when it contains one, the date
itself otherwise. -/
def specDateHead (d : Str) : Str :=
  if '.' ∈ d then d.takeWhile (· != '.') else d

/-- Date normalisation as the specification words it, the size of the date
being its number of characters. -/
def specDateChars (d : Str) : Str :=
  let d' := specDateHead d
  if d'.length = 10 then d' ++ " 00:00:00".toList
  else if d' = [] then "1970-01-01 00:00:00".toList
  else d'

/-- Date normalisation with the size of the date taken in bytes of UTF-8. -/
def specDateBytes (d : Str) : Str :=
  let d' := specDateHead d
  if len d' = 10 then d' ++ " 00:00:00".toList
  else if d' = [] then "1970-01-01 00:00:00".toList
  else d'

/-- A string ends with the character `-`. -/
def endsWithDash (s : Str) : Prop := s.getLast? = some '-'

instance (s : Str) : Decidable (endsWithDash s) := by
  unfold endsWithDash; infer_instance

/-! ## Publish -/

/-- The fields of `exec.Cmd` that `Publish` sets. -/
structure Cmd where
  Path : Str
  Args : List Str
  Dir : Str
  deriving DecidableEq

/-- The error returned by `cmd.Run()`: the process could not be started, or it
ran and exited with a status other than zero. The absence of an error means
that the process ran and exited with status zero. -/
inductive RunError where
  | spawn (msg : Str)
  | exit (status : Nat)
  deriving DecidableEq

/-- How a call of `Publish` ends: it returns, or it ends the program through
`Fatal`. -/
inductive Outcome where
  | returned
  | fatal (msg : Str)
  deriving DecidableEq

/-- Lines 168-179 of `Publish`: the command that is prepared. `GOOS` is
`runtime.GOOS` and `Join` stands for `filepath.Join`. -/
def publishCmd (GOOS command rootPath : Str) (Join : Str → Str → Str) : Cmd :=
  let shell := if GOOS = "windows".toList then "cmd".toList else "/bin/sh".toList
  let flag := if GOOS = "windows".toList then "/C".toList else "-c".toList
  { Path := shell, Args := [shell, flag, command], Dir := Join rootPath "public".toList }

/-- `Publish`, lines 167-199. `Run` stands for `cmd.Run()` on the prepared
command. Its result is a statement of its own on line 198: the error is
neither stored nor inspected, and no call of `Fatal` occurs in the function.
The two goroutines only forward output lines to the log. -/
def Publish (GOOS command rootPath : Str) (Join : Str → Str → Str)
    (Run : Cmd → Option RunError) : Outcome :=
  let cmd := publishCmd GOOS command rootPath Join
  match Run cmd with
  | none => Outcome.returned
  | some _ => Outcome.returned

/-! ## Watch -/

/-- The identity of a websocket connection, the value of the global `conn`
when it is not nil. -/
abbrev Conn := Nat

/-- The `fsnotify.Event` received from `watcher.Events`; `Op` is a bit mask. -/
structure Event where
  Name : Str
  Op : Nat
  deriving DecidableEq

/-- The constant `fsnotify.Write`. -/
def Write : Nat := 2

/-- The constant `websocket.TextMessage`. -/
def TextMessage : Nat := 1

/-- The calls the event handler makes, in order. -/
inductive Action where
  | Println (Name : Str)
  | Build
  | WriteMessage (conn : Conn) (messageType : Nat) (data : Str)
  deriving DecidableEq

/-- Lines 137-147 of `Watch`: the body of the loop for one received event, as
a step on the global `conn`. `send c` tells whether `WriteMessage` on `c`
returns a nil error. The branch taken on a nil error is empty and there is no
other branch, so both results leave `conn` as it is. `Build` is a collaborator
and the step describes the executions in which its call returns. -/
def handleEvent (send : Conn → Bool) (conn : Option Conn) (event : Event) :
    Option Conn × List Action :=
  if event.Op = Write then
    match conn with
    | some c =>
      let attempt := Action.WriteMessage c TextMessage "change".toList
      match send c with
      | true => (some c, [Action.Println event.Name, Action.Build, attempt])
      | false => (some c, [Action.Println event.Name, Action.Build, attempt])
    | none => (none, [Action.Println event.Name, Action.Build])
  else (conn, [])

/-- The loop of `Watch` on a finite sequence of received events: the final
`conn` and all the calls made. -/
def handleEvents (send : Conn → Bool) : Option Conn → List Event → Option Conn × List Action
  | conn, [] => (conn, [])
  | conn, event :: rest =>
    let step := handleEvent send conn event
    let tail := handleEvents send step.1 rest
    (tail.1, step.2 ++ tail.2)

/-- The notification attempts among a sequence of calls. -/
def attempts (acts : List Action) : List Action :=
  acts.filter (fun a => match a with
    | Action.WriteMessage _ _ _ => true
    | _ => false)

/-- The number of `Build` calls among a sequence of calls. -/
def builds (acts : List Action) : Nat := acts.count Action.Build

/-! ## Helper lemmas -/

theorem mem_foldl_cons (T : List Str) (c : Str) (m : List Str) :
    c ∈ T.foldl (fun m t => t :: m) m ↔ c ∈ T ∨ c ∈ m := by
  induction T generalizing m with
  | nil => simp
  | cons t T ih =>
    simp only [List.foldl_cons, ih, List.mem_cons]
    tauto

theorem foldl_append_filter (seen : List Str) (C acc : List Str) :
    C.foldl (fun acc c => if c ∈ seen then acc else acc ++ [c]) acc
      = acc ++ C.filter (fun c => decide (c ∉ seen)) := by
  induction C generalizing acc with
  | nil => simp
  | cons c C ih =>
    rw [List.foldl_cons, ih]
    by_cases h : c ∈ seen
    · simp [h]
    · simp [h]

theorem mergeTags_eq (T C : List Str) :
    mergeTags T C = T ++ C.filter (fun c => decide (c ∉ T)) := by
  unfold mergeTags
  simp only []
  rw [foldl_append_filter]
  congr 1
  apply List.filter_congr
  intro c _
  simp [mem_foldl_cons]

/-! ## Theorems -/

/-- C1: the converted tag list is the original tag list followed by exactly
the categories that are not among the original tags, in category order; so
the original tags are a prefix of it and every category occurs in it. -/
theorem convert_tags_merge (a : ArticleConfig) :
    (normalize a).Tags = a.Tags ++ a.Categories.filter (fun c => decide (c ∉ a.Tags)) ∧
    a.Tags <+: (normalize a).Tags ∧
    ∀ c ∈ a.Categories, c ∈ (normalize a).Tags := by
  have h : (normalize a).Tags = a.Tags ++ a.Categories.filter (fun c => decide (c ∉ a.Tags)) :=
    mergeTags_eq a.Tags a.Categories
  refine ⟨h, ?_, ?_⟩
  · rw [h]; exact List.prefix_append _ _
  · intro c hc
    rw [h]
    by_cases hT : c ∈ a.Tags
    · exact List.mem_append_left _ hT
    · exact List.mem_append_right _ (List.mem_filter.mpr ⟨hc, by simpa using hT⟩)

/-- Instance of C1: tags `a`, `b` and categories `b`, `c`, `a`, `c`; the category `c`
is appended at each of its occurrences. -/
theorem convert_tags_merge_witness :
    (normalize ⟨[], [], [], [], ["a".toList, "b".toList],
        ["b".toList, "c".toList, "a".toList, "c".toList]⟩).Tags
      = ["a".toList, "b".toList, "c".toList, "c".toList] ∧
    "c".toList ∈ (normalize ⟨[], [], [], [], ["a".toList, "b".toList],
        ["b".toList, "c".toList, "a".toList, "c".toList]⟩).Tags :=
  ⟨by decide,
   (convert_tags_merge ⟨[], [], [], [], ["a".toList, "b".toList],
        ["b".toList, "c".toList, "a".toList, "c".toList]⟩).2.2 "c".toList (by decide)⟩

/-- C2, as stated, fails: a tag list that repeats a value keeps the repetition,
and a category that is not a tag is appended once per occurrence. -/
theorem convert_tags_not_unique :
    ¬ (normalize ⟨[], [], [], [], ["a".toList, "a".toList], []⟩).Tags.Nodup ∧
    ¬ (normalize ⟨[], [], [], [], [], ["x".toList, "x".toList]⟩).Tags.Nodup := by
  decide

/-- C2, amended: when neither the tag list nor the category list repeats a
value, the converted tag list contains no value more than once. -/
theorem convert_tags_nodup (a : ArticleConfig)
    (hT : a.Tags.Nodup) (hC : a.Categories.Nodup) : (normalize a).Tags.Nodup := by
  have h : (normalize a).Tags = a.Tags ++ a.Categories.filter (fun c => decide (c ∉ a.Tags)) :=
    mergeTags_eq a.Tags a.Categories
  rw [h]
  refine List.Nodup.append hT (hC.filter _) ?_
  intro c hc hc2
  have := (List.mem_filter.mp hc2).2
  simp at this
  exact this hc

/-- Instance of the amended C2: tags `a`, `b` and categories `b`, `c` give `a`, `b`, `c`. -/
theorem convert_tags_nodup_witness :
    (normalize ⟨[], [], [], [], ["a".toList, "b".toList], ["b".toList, "c".toList]⟩).Tags
      = ["a".toList, "b".toList, "c".toList] ∧
    (normalize ⟨[], [], [], [], ["a".toList, "b".toList], ["b".toList, "c".toList]⟩).Tags.Nodup :=
  ⟨by decide, convert_tags_nodup _ (by decide) (by decide)⟩

/-! ### Dates -/

theorem len_nil : len [] = 0 := rfl

theorem len_cons (c : Char) (s : Str) : len (c :: s) = c.utf8Size + len s := by
  simp [len]

theorem len_append (s t : Str) : len (s ++ t) = len s + len t := by
  simp [len]

theorem len_eq_zero (s : Str) : len s = 0 ↔ s = [] := by
  cases s with
  | nil => simp [len_nil]
  | cons c t =>
    have := Char.utf8Size_pos c
    simp [len_cons]
    omega

theorem length_le_len (s : Str) : s.length ≤ len s := by
  induction s with
  | nil => simp [len_nil]
  | cons c t ih =>
    have := Char.utf8Size_pos c
    rw [len_cons, List.length_cons]
    omega

theorem index_dot (d : Str) :
    ('.' ∉ d ∧ Index ['.'] d = none) ∨
    ('.' ∈ d ∧ ∃ m, Index ['.'] d = some m ∧ d.take m = d.takeWhile (· != '.') ∧
      '.' ∉ d.take m) := by
  induction d with
  | nil => left; simp [Index]
  | cons c t ih =>
    by_cases hc : c = '.'
    · right
      subst hc
      refine ⟨by simp, 0, ?_, ?_, ?_⟩
      · simp [Index]
      · simp
      · simp
    · have hc2 : ¬ ('.' = c) := fun h => hc h.symm
      rcases ih with ⟨h1, h2⟩ | ⟨h1, m, h2, h3, h4⟩
      · left
        refine ⟨by simp [hc2, h1], ?_⟩
        simp [Index, hc2, h2]
      · right
        refine ⟨by simp [h1], m + 1, ?_, ?_, ?_⟩
        · simp [Index, hc2, h2]
        · simp [List.takeWhile_cons, hc, h3]
        · simp [hc2, h4]

theorem splitN_dot (d : Str) :
    ('.' ∉ d ∧ (SplitN d ['.'] 2).length = 1) ∨
    ('.' ∈ d ∧ (SplitN d ['.'] 2).length = 2 ∧
      (SplitN d ['.'] 2).getD 0 [] = d.takeWhile (· != '.')) := by
  cases d with
  | nil => left; simp [SplitN, len_nil, splitLoop]
  | cons c t =>
    have hpos := Char.utf8Size_pos c
    have hk : min 2 (len (c :: t) + 1) - 1 = 1 := by
      rw [len_cons]; omega
    have hs : SplitN (c :: t) ['.'] 2 = splitLoop ['.'] 1 (c :: t) := by
      simp [SplitN, hk]
    rw [hs]
    rcases index_dot (c :: t) with ⟨h1, h2⟩ | ⟨h1, m, h2, h3, _⟩
    · left
      exact ⟨h1, by simp [splitLoop, h2]⟩
    · right
      refine ⟨h1, by simp [splitLoop, h2], ?_⟩
      simp [splitLoop, h2, h3]

theorem not_mem_specDateHead (d : Str) : '.' ∉ specDateHead d := by
  unfold specDateHead
  split
  · intro h
    have := List.mem_takeWhile_imp h
    simp at this
  · assumption

theorem convertDate_eq (d : Str) : convertDate d = specDateBytes d := by
  have key : (if (SplitN d ['.'] 2).length = 2 then (SplitN d ['.'] 2).getD 0 [] else d)
      = specDateHead d := by
    rcases splitN_dot d with ⟨h1, h2⟩ | ⟨h1, h2, h3⟩
    · have h2' : ¬ ((SplitN d ['.'] 2).length = 2) := by omega
      rw [if_neg h2']
      simp [specDateHead, h1]
    · rw [if_pos h2, h3]
      simp [specDateHead, h1]
  unfold convertDate specDateBytes
  simp only [key]
  have h9 : len " 00:00:00".toList = 9 := by decide
  by_cases h10 : len (specDateHead d) = 10
  · have : ¬ (len (specDateHead d ++ " 00:00:00".toList) = 0) := by
      rw [len_append, h9]; omega
    rw [if_pos h10, if_neg this, if_pos h10]
  · by_cases h0 : specDateHead d = []
    · have hz : len (specDateHead d) = 0 := by rw [h0]; rfl
      rw [if_neg h10, if_pos hz, if_pos h0, if_neg h10]
    · have : ¬ (len (specDateHead d) = 0) := fun h => h0 ((len_eq_zero _).mp h)
      rw [if_neg h10, if_neg this, if_neg h0, if_neg h10]

theorem len_eq_length_of_ascii (s : Str) (h : ∀ c ∈ s, c.toNat < 128) : len s = s.length := by
  induction s with
  | nil => rfl
  | cons c t ih =>
    have hc : c.toNat < 128 := h c (List.mem_cons_self _ _)
    have h1 : c.utf8Size = 1 := by
      unfold Char.utf8Size
      have h127 : c.val ≤ UInt32.ofNatCore 127 (by decide) := by
        show c.val.toNat ≤ 127
        have : c.toNat = c.val.toNat := rfl
        omega
      exact if_pos h127
    rw [len_cons, h1, ih (fun x hx => h x (List.mem_cons_of_mem _ hx)), List.length_cons]
    omega

theorem specDateHead_of_not_mem (d : Str) (h : '.' ∉ d) : specDateHead d = d := by
  simp [specDateHead, h]

theorem specDateHead_of_split (pre post : Str) (h : '.' ∉ pre) :
    specDateHead (pre ++ '.' :: post) = pre := by
  have hmem : '.' ∈ pre ++ '.' :: post := by simp
  unfold specDateHead
  rw [if_pos hmem]
  induction pre with
  | nil => simp
  | cons c t ih =>
    have hc : c ≠ '.' := fun e => h (by simp [e])
    have ht : '.' ∉ t := fun e => h (List.mem_cons_of_mem _ e)
    have := ih ht (by simp)
    simp [List.takeWhile_cons, hc, this]

theorem specDateBytes_facts (d : Str) :
    '.' ∉ specDateBytes d ∧ specDateBytes d ≠ [] ∧ len (specDateBytes d) ≠ 10 := by
  have hdot := not_mem_specDateHead d
  have h9 : len " 00:00:00".toList = 9 := by decide
  have h19 : len "1970-01-01 00:00:00".toList = 19 := by decide
  unfold specDateBytes
  simp only []
  by_cases h10 : len (specDateHead d) = 10
  · rw [if_pos h10]
    refine ⟨?_, ?_, ?_⟩
    · intro h
      rcases List.mem_append.mp h with h | h
      · exact hdot h
      · revert h; decide
    · intro h
      have := congrArg len h
      rw [len_append, h9, len_nil] at this
      omega
    · rw [len_append, h9]; omega
  · rw [if_neg h10]
    by_cases h0 : specDateHead d = []
    · rw [if_pos h0]
      exact ⟨by decide, by decide, by decide⟩
    · rw [if_neg h0]
      exact ⟨hdot, h0, h10⟩

theorem specDateBytes_fixed (r : Str) (h1 : '.' ∉ r) (h2 : r ≠ []) (h3 : len r ≠ 10) :
    specDateBytes r = r := by
  unfold specDateBytes
  simp only [specDateHead_of_not_mem r h1]
  rw [if_neg h3, if_neg h2]

theorem convertDate_idempotent (d : Str) : convertDate (convertDate d) = convertDate d := by
  obtain ⟨h1, h2, h3⟩ := specDateBytes_facts d
  rw [convertDate_eq d, convertDate_eq (specDateBytes d)]
  exact specDateBytes_fixed _ h1 h2 h3

theorem mergeTags_idempotent (T C : List Str) : mergeTags (mergeTags T C) C = mergeTags T C := by
  rw [mergeTags_eq T C, mergeTags_eq]
  have : C.filter (fun c => decide (c ∉ T ++ C.filter (fun c => decide (c ∉ T)))) = [] := by
    rw [List.filter_eq_nil_iff]
    intro c hc
    by_cases hT : c ∈ T
    · simp [hT]
    · simp [hT, hc]
  rw [this, List.append_nil]

theorem defaultAuthor_idempotent (x : Str) : defaultAuthor (defaultAuthor x) = defaultAuthor x := by
  unfold defaultAuthor
  by_cases h : x = []
  · subst h; decide
  · rw [if_neg h, if_neg h]

theorem normalize_eq (a : ArticleConfig) :
    normalize a =
      { Title := a.Title
        Date := convertDate a.Date
        Update := []
        Author := defaultAuthor a.Author
        Tags := mergeTags a.Tags a.Categories
        Categories := a.Categories } := rfl

/-! ### Splitting at the delimiter -/

theorem index_delim_none (s : Str) (h : ¬ delim <:+: s) : Index delim s = none := by
  induction s with
  | nil => simp [Index, delim]
  | cons c t ih =>
    have ht : ¬ delim <:+: t := fun e => h (e.trans (List.suffix_cons c t).isInfix)
    have hp : delim.isPrefixOf (c :: t) = false := by
      cases hb : delim.isPrefixOf (c :: t) with
      | false => rfl
      | true => exact absurd (List.isPrefixOf_iff_prefix.mp hb).isInfix h
    simp [Index, hp, ih ht]

theorem delim_isPrefixOf_false (a b c : Char) (l : Str)
    (h : a ≠ '-' ∨ b ≠ '-' ∨ c ≠ '-') : delim.isPrefixOf (a :: b :: c :: l) = false := by
  cases hb : delim.isPrefixOf (a :: b :: c :: l) with
  | false => rfl
  | true =>
    obtain ⟨r, hr⟩ := List.isPrefixOf_iff_prefix.mp hb
    simp only [delim, List.cons_append, List.nil_append, List.cons.injEq] at hr
    obtain ⟨h1, h2, h3, _⟩ := hr
    rcases h with h | h | h
    · exact absurd h1.symm h
    · exact absurd h2.symm h
    · exact absurd h3.symm h

theorem index_delim_append (A rest : Str) (h : ¬ delim <:+: A) (hd : ¬ endsWithDash A) :
    Index delim (A ++ (delim ++ rest)) = some A.length := by
  induction A with
  | nil => simp [Index, delim]
  | cons c t ih =>
    have ht : ¬ delim <:+: t := fun e => h (e.trans (List.suffix_cons c t).isInfix)
    have htd : ¬ endsWithDash t := by
      cases t with
      | nil => simp [endsWithDash]
      | cons x t' => simpa [endsWithDash, List.getLast?_cons_cons] using hd
    have hp : delim.isPrefixOf (c :: (t ++ (delim ++ rest))) = false := by
      cases t with
      | nil =>
        have hc : c ≠ '-' := fun e => hd (by simp [endsWithDash, e])
        show delim.isPrefixOf (c :: '-' :: '-' :: ('-' :: rest)) = false
        exact delim_isPrefixOf_false _ _ _ _ (Or.inl hc)
      | cons x t' =>
        cases t' with
        | nil =>
          have hx : x ≠ '-' := fun e => hd (by simp [endsWithDash, e])
          show delim.isPrefixOf (c :: x :: '-' :: ('-' :: '-' :: rest)) = false
          exact delim_isPrefixOf_false _ _ _ _ (Or.inr (Or.inl hx))
        | cons y t'' =>
          show delim.isPrefixOf (c :: x :: y :: (t'' ++ (delim ++ rest))) = false
          by_cases hc : c = '-'
          · by_cases hx : x = '-'
            · by_cases hy : y = '-'
              · subst hc; subst hx; subst hy
                exact absurd (List.prefix_append delim t'').isInfix h
              · exact delim_isPrefixOf_false _ _ _ _ (Or.inr (Or.inr hy))
            · exact delim_isPrefixOf_false _ _ _ _ (Or.inr (Or.inl hx))
          · exact delim_isPrefixOf_false _ _ _ _ (Or.inl hc)
    have hi := ih ht htd
    show Index delim (c :: (t ++ (delim ++ rest))) = _
    rw [Index, hp, hi]
    rfl

theorem splitLoop_delim_cut (k : Nat) (A rest : Str) (h : ¬ delim <:+: A)
    (hd : ¬ endsWithDash A) :
    splitLoop delim (k + 1) (A ++ (delim ++ rest)) = A :: splitLoop delim k rest := by
  have h1 : (A ++ (delim ++ rest)).take A.length = A := List.take_left' rfl
  have h2 : (A ++ (delim ++ rest)).drop (A.length + delim.length) = rest := by
    rw [← List.append_assoc]
    exact List.drop_left' (by simp)
  rw [splitLoop, index_delim_append A rest h hd]
  simp only [h1, h2]

theorem splitLoop_delim_last (k : Nat) (B : Str) (h : ¬ delim <:+: B) :
    splitLoop delim k B = [B] := by
  cases k with
  | zero => rfl
  | succ k => rw [splitLoop, index_delim_none B h]

theorem splitN_delim_of_long (s : Str) (h : 2 ≤ s.length) :
    SplitN s delim 3 = splitLoop delim 2 s := by
  have := length_le_len s
  have hk : min 3 (len s + 1) - 1 = 2 := by omega
  simp [SplitN, delim, hk]

theorem convertFile_written (Unmarshal : Str → Except Str ArticleConfig)
    (Marshal : ArticleConfig → Except Str Str) (path data target out : Str)
    (article : ArticleConfig) (ht : targetName path = some target)
    (hU : Unmarshal (splitConfig data).1 = Except.ok article)
    (hM : Marshal (normalize article) = Except.ok out) :
    convertFile Unmarshal Marshal path (Except.ok data) =
      FileResult.written target
        (out ++ "\n\n---\n\n".toList ++ (splitConfig data).2 ++ "\n".toList) := by
  unfold convertFile
  rw [ht]
  simp only [hU, hM]

/-! ## Theorems on `Convert` -/

/-- C3, as stated, fails: a date of ten characters that is longer than ten
bytes, here with three CJK characters, is left unchanged, where the claim
appends the time of day. -/
theorem convert_date_ten_characters_unchanged :
    "2015年1月02日".toList.length = 10 ∧
    '.' ∉ "2015年1月02日".toList ∧
    len "2015年1月02日".toList = 16 ∧
    convertDate "2015年1月02日".toList = "2015年1月02日".toList ∧
    specDateChars "2015年1月02日".toList = "2015年1月02日 00:00:00".toList ∧
    convertDate "2015年1月02日".toList ≠ specDateChars "2015年1月02日".toList := by
  decide

/-- C3, amended: with d' the portion of the date before its first `.` (the
date itself when it has none), the converted date is d' followed by
" 00:00:00" when the UTF-8 encoding of d' has exactly 10 bytes, the default
"1970-01-01 00:00:00" when d' is empty, and d' otherwise. When d' consists of
ASCII characters, 10 bytes are 10 characters and the converted date is the one
the specification gives; the four dates of the specification are instances. -/
theorem convert_date_normalised (d : Str) :
    convertDate d = specDateBytes d ∧
    ((∀ c ∈ specDateHead d, c.toNat < 128) → convertDate d = specDateChars d) ∧
    convertDate "2015-01-02".toList = "2015-01-02 00:00:00".toList ∧
    convertDate "2015-01-02.10:00".toList = "2015-01-02 00:00:00".toList ∧
    convertDate [] = "1970-01-01 00:00:00".toList ∧
    convertDate "2015-01-02 03:04:05".toList = "2015-01-02 03:04:05".toList := by
  refine ⟨convertDate_eq d, ?_, by decide, by decide, by decide, by decide⟩
  intro h
  rw [convertDate_eq]
  unfold specDateBytes specDateChars
  simp only [len_eq_length_of_ascii _ h]

/-- Instance of the amended C3 on the ASCII date `2015-01-02.10:00`. -/
theorem convert_date_normalised_witness :
    (∀ c ∈ specDateHead "2015-01-02.10:00".toList, c.toNat < 128) ∧
    convertDate "2015-01-02.10:00".toList = specDateChars "2015-01-02.10:00".toList ∧
    specDateChars "2015-01-02.10:00".toList = "2015-01-02 00:00:00".toList :=
  ⟨by decide, (convert_date_normalised "2015-01-02.10:00".toList).2.1 (by decide), by decide⟩

/-- C9: the converted `update` field is empty whatever it was, the converted
author is "me" when the input author is empty, and is the input author when
that one is not empty. -/
theorem convert_author_update (a : ArticleConfig) :
    (normalize a).Update = [] ∧
    (a.Author = [] → (normalize a).Author = "me".toList) ∧
    (a.Author ≠ [] → (normalize a).Author = a.Author) := by
  refine ⟨rfl, ?_, ?_⟩
  · intro h
    show defaultAuthor a.Author = _
    rw [defaultAuthor, if_pos h]
  · intro h
    show defaultAuthor a.Author = _
    rw [defaultAuthor, if_neg h]

/-- Instances of C9: an empty author and the author `ann`. -/
theorem convert_author_update_witness :
    (normalize ⟨[], [], "2015-01-02".toList, [], [], []⟩).Author = "me".toList ∧
    (normalize ⟨[], [], "2015-01-02".toList, "ann".toList, [], []⟩).Author = "ann".toList ∧
    (normalize ⟨[], [], "2015-01-02".toList, "ann".toList, [], []⟩).Update = [] :=
  ⟨(convert_author_update ⟨[], [], "2015-01-02".toList, [], [], []⟩).2.1 rfl,
   (convert_author_update ⟨[], [], "2015-01-02".toList, "ann".toList, [], []⟩).2.2 (by decide),
   (convert_author_update ⟨[], [], "2015-01-02".toList, "ann".toList, [], []⟩).1⟩

/-- C10: normalising an already normalised front matter changes nothing, and
the normalised date is never empty and contains no `.`. -/
theorem normalize_idempotent (a : ArticleConfig) :
    normalize (normalize a) = normalize a ∧
    (normalize a).Date ≠ [] ∧ '.' ∉ (normalize a).Date := by
  obtain ⟨h1, h2, _⟩ := specDateBytes_facts a.Date
  have hD : (normalize a).Date = convertDate a.Date := rfl
  refine ⟨?_, ?_, ?_⟩
  · rw [normalize_eq (normalize a), normalize_eq a]
    simp only [convertDate_idempotent, defaultAuthor_idempotent, mergeTags_idempotent]
  · rw [hD, convertDate_eq]; exact h2
  · rw [hD, convertDate_eq]; exact h1

/-- C4, as stated, fails: when the part before a delimiter ends with `-`, the
first occurrence of `---` starts one character early. The content `----b---c`
is `-`, `---`, `b`, `---`, `c`, and its front matter is `-b`, not `b`; the
content `x----y` is `x-`, `---`, `y`, and its front matter is `x`, its body
`-y`. -/
theorem split_config_dash_before_delimiter :
    (¬ delim <:+: "-".toList ∧ ¬ delim <:+: "b".toList ∧
      TrimSpace "----b---c".toList
        = "-".toList ++ delim ++ "b".toList ++ delim ++ "c".toList ∧
      splitConfig "----b---c".toList = ("-b".toList, "c".toList) ∧
      splitConfig "----b---c".toList ≠ ("b".toList, "c".toList)) ∧
    (¬ delim <:+: "x-".toList ∧ ¬ delim <:+: "y".toList ∧
      TrimSpace "x----y".toList = "x-".toList ++ delim ++ "y".toList ∧
      splitConfig "x----y".toList = ("x".toList, "-y".toList) ∧
      splitConfig "x----y".toList ≠ ("x-".toList, "y".toList)) := by
  decide

/-- C4, amended: for strings A and B that neither contain `---` nor end with
`-`, a file whose trimmed content is A, `---`, B, `---`, C (C arbitrary) yields
front matter B and body C; and for A that neither contains `---` nor ends with
`-` and B that does not contain `---`, a file whose trimmed content is A,
`---`, B yields front matter A and body B. -/
theorem split_config_front_matter (data A B C : Str)
    (hA : ¬ delim <:+: A) (hAd : ¬ endsWithDash A) (hB : ¬ delim <:+: B) :
    (¬ endsWithDash B → TrimSpace data = A ++ delim ++ B ++ delim ++ C →
      splitConfig data = (B, C)) ∧
    (TrimSpace data = A ++ delim ++ B → splitConfig data = (A, B)) := by
  constructor
  · intro hBd hdata
    have hlen : 2 ≤ (TrimSpace data).length := by
      rw [hdata]; simp [delim]; omega
    have hs : SplitN (TrimSpace data) delim 3 = [A, B, C] := by
      rw [splitN_delim_of_long _ hlen, hdata]
      simp only [List.append_assoc]
      rw [splitLoop_delim_cut 1 A _ hA hAd, splitLoop_delim_cut 0 B _ hB hBd]
      rfl
    unfold splitConfig
    simp only [hs]
    rfl
  · intro hdata
    have hlen : 2 ≤ (TrimSpace data).length := by
      rw [hdata]; simp [delim]; omega
    have hs : SplitN (TrimSpace data) delim 3 = [A, B] := by
      rw [splitN_delim_of_long _ hlen, hdata]
      simp only [List.append_assoc]
      rw [splitLoop_delim_cut 1 A _ hA hAd, splitLoop_delim_last 1 B hB]
    unfold splitConfig
    simp only [hs]
    rfl

/-- Instances of the amended C4: a file with a leading delimiter and a file without one. -/
theorem split_config_front_matter_witness :
    splitConfig " \n---\ntitle: a-b\n---\nbody --- rest\n".toList
      = ("\ntitle: a-b\n".toList, "\nbody --- rest".toList) ∧
    splitConfig "title: a-b\n---\nbody\n\n".toList
      = ("title: a-b\n".toList, "\nbody".toList) :=
  ⟨(split_config_front_matter " \n---\ntitle: a-b\n---\nbody --- rest\n".toList
      [] "\ntitle: a-b\n".toList "\nbody --- rest".toList
      (by decide) (by decide) (by decide)).1 (by decide) (by decide),
   (split_config_front_matter "title: a-b\n---\nbody\n\n".toList
      "title: a-b\n".toList "\nbody".toList []
      (by decide) (by decide) (by decide)).2 (by decide)⟩

/-- C5, as stated, fails: `post.MD` is selected, its extension `.MD` is not
exactly `.md`, and yet no `.md` is appended: the output is `source/post.MD`,
where the claim gives `source/post.MD.md`. -/
theorem target_name_upper_case_md :
    Ext "post.MD".toList = ".MD".toList ∧
    Ext "post.MD".toList ≠ ".md".toList ∧
    ToLower (Ext "post.MD".toList) = ".md".toList ∧
    Base "post.MD".toList = "post.MD".toList ∧
    targetName "post.MD".toList = some "source/post.MD".toList ∧
    targetName "post.MD".toList ≠ some "source/post.MD.md".toList := by
  decide

/-- C5, amended: the output path under the target root is `source/<name>`
when the extension of the file equals `.md` ignoring letter case, and
`source/<name>.md` when it equals `.html` ignoring letter case; `post.html`
gives `source/post.html.md` and `post.md` gives `source/post.md`. A file with
any other extension is skipped and produces no output. -/
theorem target_name_by_extension (path : Str) :
    (ToLower (Ext path) = ".md".toList →
      targetName path = some ("source/".toList ++ Base path)) ∧
    (ToLower (Ext path) = ".html".toList →
      targetName path = some ("source/".toList ++ Base path ++ ".md".toList)) ∧
    (ToLower (Ext path) ≠ ".md".toList → ToLower (Ext path) ≠ ".html".toList →
      targetName path = none ∧
      ∀ Unmarshal Marshal read, convertFile Unmarshal Marshal path read = FileResult.skipped) ∧
    targetName "post.html".toList = some "source/post.html.md".toList ∧
    targetName "post.md".toList = some "source/post.md".toList := by
  refine ⟨?_, ?_, ?_, by decide, by decide⟩
  · intro h
    unfold targetName
    simp only [h]
    rfl
  · intro h
    have hne : ".html".toList ≠ ".md".toList := by decide
    unfold targetName
    simp only [h]
    rw [if_pos (Or.inr trivial), if_pos hne]
  · intro h1 h2
    have hn : targetName path = none := by
      unfold targetName
      simp only []
      rw [if_neg (by tauto)]
    refine ⟨hn, ?_⟩
    intro U M r
    unfold convertFile
    rw [hn]

/-- Instances of the amended C5: `A.Md`, `b.HTML` and `c.txt`. -/
theorem target_name_by_extension_witness :
    targetName "posts/A.Md".toList = some "source/A.Md".toList ∧
    targetName "posts/b.HTML".toList = some "source/b.HTML.md".toList ∧
    targetName "posts/c.txt".toList = none :=
  ⟨(target_name_by_extension "posts/A.Md".toList).1 (by decide),
   (target_name_by_extension "posts/b.HTML".toList).2.1 (by decide),
   ((target_name_by_extension "posts/c.txt".toList).2.2.1 (by decide) (by decide)).1⟩

/-! ## Theorems on `Publish` -/

/-- C6, as stated, fails: when the shell exits with status 3, and when it
cannot be started at all, `Publish` returns normally. -/
theorem publish_returns_after_failure :
    Publish "linux".toList "exit 3".toList ".".toList (fun a b => a ++ '/' :: b)
      (fun _ => some (RunError.exit 3)) = Outcome.returned ∧
    (¬ ∃ msg, Publish "linux".toList "exit 3".toList ".".toList (fun a b => a ++ '/' :: b)
      (fun _ => some (RunError.exit 3)) = Outcome.fatal msg) ∧
    Publish "linux".toList "exit 3".toList ".".toList (fun a b => a ++ '/' :: b)
      (fun _ => some (RunError.spawn "no such file or directory".toList)) = Outcome.returned ∧
    (¬ ∃ msg, Publish "linux".toList "exit 3".toList ".".toList (fun a b => a ++ '/' :: b)
      (fun _ => some (RunError.spawn "no such file or directory".toList))
        = Outcome.fatal msg) := by
  refine ⟨rfl, ?_, rfl, ?_⟩
  · rintro ⟨msg, h⟩
    cases h
  · rintro ⟨msg, h⟩
    cases h

/-- C6, amended: for every publish command and whatever becomes of the
subprocess (it cannot be spawned, it exits with a non-zero status, it exits
with status zero), `Publish` returns normally and raises no fatal error; the
command it runs is the configured string handed to `/bin/sh -c`, or to
`cmd /C` on Windows, in the `public` directory under the root. -/
theorem publish_always_returns (GOOS command rootPath : Str) (Join : Str → Str → Str)
    (Run : Cmd → Option RunError) :
    Publish GOOS command rootPath Join Run = Outcome.returned ∧
    (publishCmd GOOS command rootPath Join).Dir = Join rootPath "public".toList ∧
    (publishCmd GOOS command rootPath Join).Args =
      (if GOOS = "windows".toList then ["cmd".toList, "/C".toList, command]
       else ["/bin/sh".toList, "-c".toList, command]) := by
  refine ⟨?_, rfl, ?_⟩
  · unfold Publish
    simp only []
    split <;> rfl
  · unfold publishCmd
    by_cases h : GOOS = "windows".toList
    · simp only [if_pos h]
    · simp only [if_neg h]

/-! ## Theorems on `Watch` -/

/-- C7: on an event whose operation is `Write` the handler prints the name,
calls `Build` exactly once and then, when a connection is present, makes
exactly one notification attempt, the text message `change` on that
connection; when no connection is present it makes no attempt and completes
all the same. On an event with any other operation it makes no call at all and
leaves the connection as it is. -/
theorem watch_event_step (send : Conn → Bool) (conn : Option Conn) (event : Event) :
    (event.Op = Write → ∀ c, conn = some c →
      (handleEvent send conn event).2 =
        [Action.Println event.Name, Action.Build,
         Action.WriteMessage c TextMessage "change".toList] ∧
      builds (handleEvent send conn event).2 = 1 ∧
      attempts (handleEvent send conn event).2 =
        [Action.WriteMessage c TextMessage "change".toList]) ∧
    (event.Op = Write → conn = none →
      (handleEvent send conn event).2 = [Action.Println event.Name, Action.Build] ∧
      builds (handleEvent send conn event).2 = 1 ∧
      attempts (handleEvent send conn event).2 = []) ∧
    (event.Op ≠ Write → handleEvent send conn event = (conn, [])) := by
  refine ⟨?_, ?_, ?_⟩
  · intro hw c hc
    subst hc
    have h : (handleEvent send (some c) event).2 =
        [Action.Println event.Name, Action.Build,
         Action.WriteMessage c TextMessage "change".toList] := by
      unfold handleEvent
      rw [if_pos hw]
      cases hs : send c <;> simp only [hs]
    rw [h]
    exact ⟨rfl, by simp [builds], by simp [attempts]⟩
  · intro hw hc
    subst hc
    have h : (handleEvent send none event).2 = [Action.Println event.Name, Action.Build] := by
      unfold handleEvent
      rw [if_pos hw]
    rw [h]
    exact ⟨rfl, by simp [builds], by simp [attempts]⟩
  · intro hw
    unfold handleEvent
    rw [if_neg hw]

/-- Instances of C7: a write event with and without a connection, and a create event. -/
theorem watch_event_step_witness :
    (handleEvent (fun _ => true) (some 4) ⟨"source/a.md".toList, 2⟩).2 =
      [Action.Println "source/a.md".toList, Action.Build,
       Action.WriteMessage 4 1 "change".toList] ∧
    (handleEvent (fun _ => true) none ⟨"source/a.md".toList, 2⟩).2 =
      [Action.Println "source/a.md".toList, Action.Build] ∧
    handleEvent (fun _ => true) (some 4) ⟨"source/a.md".toList, 1⟩ = (some 4, []) :=
  ⟨((watch_event_step (fun _ => true) (some 4) ⟨"source/a.md".toList, 2⟩).1 rfl 4 rfl).1,
   ((watch_event_step (fun _ => true) none ⟨"source/a.md".toList, 2⟩).2.1 rfl rfl).1,
   (watch_event_step (fun _ => true) (some 4) ⟨"source/a.md".toList, 1⟩).2.2 (by decide)⟩

/-- C8, as stated, fails: after a write event whose notification fails, the
connection is still stored, and the next write event makes a second attempt
on the same connection. -/
theorem stale_connection_is_kept :
    (handleEvent (fun _ => false) (some 7) ⟨"source/a.md".toList, Write⟩).1 = some 7 ∧
    (handleEvent (fun _ => false) (some 7) ⟨"source/a.md".toList, Write⟩).1 ≠ none ∧
    attempts (handleEvents (fun _ => false) (some 7)
        [⟨"source/a.md".toList, Write⟩, ⟨"source/b.md".toList, Write⟩]).2 =
      [Action.WriteMessage 7 TextMessage "change".toList,
       Action.WriteMessage 7 TextMessage "change".toList] := by
  decide

/-- C8, amended: when the notification sent for a write event fails, the
failure is not escalated, the stored connection is the same afterwards, and
the next write event makes one more send attempt on that connection. -/
theorem failed_send_keeps_connection (send : Conn → Bool) (c : Conn) (event next : Event)
    (hw : event.Op = Write) (hn : next.Op = Write) (hfail : send c = false) :
    (handleEvent send (some c) event).1 = some c ∧
    attempts (handleEvent send (handleEvent send (some c) event).1 next).2 =
      [Action.WriteMessage c TextMessage "change".toList] ∧
    attempts (handleEvents send (some c) [event, next]).2 =
      [Action.WriteMessage c TextMessage "change".toList,
       Action.WriteMessage c TextMessage "change".toList] := by
  have h1 : ∀ e : Event, e.Op = Write → handleEvent send (some c) e =
      (some c, [Action.Println e.Name, Action.Build,
        Action.WriteMessage c TextMessage "change".toList]) := by
    intro e he
    unfold handleEvent
    rw [if_pos he]
    simp only [hfail]
  refine ⟨by rw [h1 event hw], ?_, ?_⟩
  · rw [h1 event hw]
    simp only []
    rw [h1 next hn]
    simp [attempts]
  · simp only [handleEvents, h1 event hw, h1 next hn]
    simp [attempts]

/-- Instance of the amended C8: two write events on connection 7 with a failing send. -/
theorem failed_send_keeps_connection_witness :
    (handleEvent (fun _ => false) (some 7) ⟨"source/a.md".toList, Write⟩).1 = some 7 ∧
    attempts (handleEvent (fun _ => false)
        (handleEvent (fun _ => false) (some 7) ⟨"source/a.md".toList, Write⟩).1
        ⟨"source/b.md".toList, Write⟩).2 =
      [Action.WriteMessage 7 TextMessage "change".toList] :=
  ⟨(failed_send_keeps_connection (fun _ => false) 7 ⟨"source/a.md".toList, Write⟩
      ⟨"source/b.md".toList, Write⟩ rfl rfl rfl).1,
   (failed_send_keeps_connection (fun _ => false) 7 ⟨"source/a.md".toList, Write⟩
      ⟨"source/b.md".toList, Write⟩ rfl rfl rfl).2.1⟩

end Ink
